import Mathlib

/-!
Verification of the allocator layer of `rust-os-playground`.

The development shallowly embeds the repository's allocator code:
  * `align_up` (src/src/allocator.rs) — bit-mask rounding on `usize`, with the
    64-bit wraparound of `addr + align - 1` made explicit;
  * the intrusive free-list allocator (src/src/allocator/linked_list.rs) —
    the free list is represented by the list of regions hanging off the
    sentinel head, in list order; panics (`assert!`, `expect`) are `none`;
  * `init_heap` (src/src/allocator.rs) — with the page mapper and frame
    allocator as abstract collaborators;
  * the bump allocator — its source file is not in the tree, so it is
    modelled from the specification (§3, §4.3).

Machine integers are `Nat` with an explicit `% 2 ^ 64` where overflow
matters.
-/

/-- width of `usize` on the x86_64 target: `2 ^ 64`. -/
def USIZE : Nat := 2 ^ 64

/-- Embedding of `align_up` (src/src/allocator.rs lines 45-55):
`(addr + align - 1) & !(align - 1)` on `usize`.  For `1 ≤ align < 2^64` the
bitwise complement `!(align - 1)` is `2^64 - align`; the addition
`addr + align - 1` wraps modulo `2^64`. -/
def align_up (addr align : Nat) : Nat :=
  ((addr + align - 1) % USIZE) &&& ((USIZE - align) % USIZE)

/-! ## Linked-list allocator (src/src/allocator/linked_list.rs)

A `ListNode { size: usize, next: Option<&'static mut ListNode> }` occupies
16 bytes on x86_64 (8-byte `usize` plus a niche-optimized 8-byte option of a
reference) and has alignment 8.  The free list hanging off the size-0
sentinel head is represented by the Lean list of its regions in list order;
a node is the pair of its own start address and its recorded `size`.
Panicking paths (`assert!`, `expect`) are embedded as `none`. -/

/-- bytes of `mem::size_of::<ListNode>()` on the x86_64 target. -/
def listNodeSize : Nat := 16

/-- bytes of `mem::align_of::<ListNode>()` on the x86_64 target. -/
def listNodeAlign : Nat := 8

/-- a free region: the node's start address (`start_addr`) and its `size`. -/
structure Region where
  start : Nat
  size : Nat
deriving DecidableEq

/-- `ListNode::end_addr`: `start_addr + size`. -/
def Region.endAddr (r : Region) : Nat := r.start + r.size

/-- `usize::checked_add`. -/
def checked_add (a b : Nat) : Option Nat :=
  if a + b < USIZE then some (a + b) else none

/-- `LinkedListAllocator::add_free_region` (lines 63-76): assert the region
can hold a `ListNode` (start aligned to the node alignment, size at least
the node footprint), then write a node at `addr` and splice it onto the
head of the list.  A failed assertion halts, embedded as `none`. -/
def add_free_region (l : List Region) (addr size : Nat) : Option (List Region) :=
  if align_up addr listNodeAlign = addr ∧ listNodeSize ≤ size then
    some (⟨addr, size⟩ :: l)
  else
    none

/-- `LinkedListAllocator::alloc_from_region` (lines 109-126): the start of
the candidate allocation is `align_up(region.start_addr, align)`; the end is
the overflow-checked `alloc_start + size`; the region is rejected when the
allocation does not fit or when the leftover tail is nonzero but too small
to hold a `ListNode`. -/
def alloc_from_region (region : Region) (size align : Nat) : Option Nat :=
  let alloc_start := align_up region.start align
  match checked_add alloc_start size with
  | none => none
  | some alloc_end =>
    if region.endAddr < alloc_end then
      none
    else
      let excess_size := region.endAddr - alloc_end
      if 0 < excess_size ∧ excess_size < listNodeSize then
        none
      else
        some alloc_start

/-- `LinkedListAllocator::find_region` (lines 82-103): linear scan from the
head; the first node for which `alloc_from_region` succeeds is unlinked and
returned together with the allocation start; the remaining nodes keep their
order. -/
def find_region (l : List Region) (size align : Nat) :
    Option (Region × Nat × List Region) :=
  match l with
  | [] => none
  | region :: rest =>
    match alloc_from_region region size align with
    | some alloc_start => some (region, alloc_start, rest)
    | none =>
      match find_region rest size align with
      | some (r, a, l') => some (r, a, region :: l')
      | none => none

/-- `LinkedListAllocator::size_align` (lines 132-140): `Layout::align_to`
raises the alignment to at least the node alignment, `pad_to_align` rounds
the size up to a multiple of that alignment, and the result is at least the
node footprint. -/
def size_align (lsize lalign : Nat) : Nat × Nat :=
  let align := max lalign listNodeAlign
  let size := max (align_up lsize align) listNodeSize
  (size, align)

/-- `GlobalAlloc::alloc` for `Locked<LinkedListAllocator>` (lines 144-161):
adjust the layout, search first-fit; on success re-add any excess tail as a
new free region and return the allocation start; on failure return the null
pointer (`inner = none`) with the list untouched.  The outer `none` is a
panic (`expect` overflow or a failed assertion). -/
def ll_alloc (l : List Region) (lsize lalign : Nat) :
    Option (Option Nat × List Region) :=
  let sa := size_align lsize lalign
  match find_region l sa.1 sa.2 with
  | some (region, alloc_start, rest) =>
    match checked_add alloc_start sa.1 with
    | none => none
    | some alloc_end =>
      let excess_size := region.endAddr - alloc_end
      if 0 < excess_size then
        match add_free_region rest alloc_end excess_size with
        | none => none
        | some rest' => some (some alloc_start, rest')
      else
        some (some alloc_start, rest)
  | none => some (none, l)

/-- `GlobalAlloc::dealloc` for `Locked<LinkedListAllocator>` (lines 163-168):
recompute the adjusted size and re-add the freed block at the list head. -/
def ll_dealloc (l : List Region) (p lsize lalign : Nat) : Option (List Region) :=
  add_free_region l p (size_align lsize lalign).1

/-- `LinkedListAllocator::init` (lines 58-60): add the whole heap as the
single free region of the empty allocator. -/
def ll_init (heap_start heap_size : Nat) : Option (List Region) :=
  add_free_region [] heap_start heap_size

/-! ## Allocation traces

`core::alloc::Layout` guarantees by construction that the alignment is a
power of two and that the padded size fits in `isize`; traces only feed the
allocators layouts satisfying that contract, and only deallocate currently
outstanding blocks with their original layout (the calling convention of
`GlobalAlloc`, which the spec notes the caller must uphold). -/

/-- validity contract of `core::alloc::Layout`: the alignment is a power of
two representable in `usize`, and the size rounded up to the alignment does
not exceed `isize::MAX`. -/
def layout_valid (lsize lalign : Nat) : Bool :=
  (List.range 64).any (fun m => lalign == 2 ^ m) &&
    decide (lsize + lalign ≤ 2 ^ 63)

/-- the free-list node invariant of the spec: a region can host a
`ListNode`. -/
def good_region (r : Region) : Prop :=
  listNodeSize ≤ r.size ∧ align_up r.start listNodeAlign = r.start

/-- every node of the free list satisfies `good_region`. -/
def good_list (l : List Region) : Prop := ∀ r ∈ l, good_region r

/-- the address ranges `[start, start + size)` of two regions are disjoint. -/
def reg_disjoint (r1 r2 : Region) : Prop :=
  r1.start + r1.size ≤ r2.start ∨ r2.start + r2.size ≤ r1.start

instance : DecidableRel reg_disjoint := fun r1 r2 => by
  unfold reg_disjoint
  infer_instance

/-- containment of address ranges. -/
def reg_sub (r' r : Region) : Prop :=
  r.start ≤ r'.start ∧ r'.endAddr ≤ r.endAddr

/-- an outstanding allocation: its address and the layout the caller will
pass back to `dealloc`. -/
structure LiveBlock where
  addr : Nat
  lsize : Nat
  lalign : Nat
deriving DecidableEq

/-- the address range an outstanding linked-list allocation occupies:
`[addr, addr + adjusted_size)`. -/
def LiveBlock.region (b : LiveBlock) : Region :=
  ⟨b.addr, (size_align b.lsize b.lalign).1⟩

/-- allocator trace state: the free list plus the outstanding blocks. -/
structure LLState where
  free : List Region
  live : List LiveBlock
deriving DecidableEq

/-- the regions of all outstanding allocations. -/
def ll_live_regions (s : LLState) : List Region := s.live.map LiveBlock.region

/-- one call of the public allocation interface: `alloc` with a layout, or
`dealloc` of the `idx`-th outstanding block with its original layout. -/
inductive AllocOp where
  | alloc (lsize lalign : Nat)
  | dealloc (idx : Nat)

/-- one trace step of the linked-list allocator; `none` is a panic or an
op outside the calling convention. -/
def ll_step (s : LLState) : AllocOp → Option LLState
  | .alloc lsize lalign =>
    if layout_valid lsize lalign then
      match ll_alloc s.free lsize lalign with
      | some (some a, free') => some ⟨free', ⟨a, lsize, lalign⟩ :: s.live⟩
      | some (none, free') => some ⟨free', s.live⟩
      | none => none
    else none
  | .dealloc i =>
    match s.live[i]? with
    | some b =>
      match ll_dealloc s.free b.addr b.lsize b.lalign with
      | some free' => some ⟨free', s.live.eraseIdx i⟩
      | none => none
    | none => none

/-- run a sequence of calls. -/
def ll_run (s : LLState) : List AllocOp → Option LLState
  | [] => some s
  | op :: ops =>
    match ll_step s op with
    | some s' => ll_run s' ops
    | none => none

/-- initialize the linked-list allocator on the heap window, then run. -/
def ll_exec (heap_start heap_size : Nat) (ops : List AllocOp) :
    Option LLState :=
  match ll_init heap_start heap_size with
  | some free0 => ll_run ⟨free0, []⟩ ops
  | none => none

/-- trace invariant of the linked-list allocator: free regions and
outstanding blocks live below `2^63`, free nodes can host list nodes,
outstanding addresses are node-aligned, and all regions are pairwise
disjoint. -/
def ll_inv (s : LLState) : Prop :=
  (∀ r ∈ s.free, r.endAddr ≤ 2 ^ 63) ∧
  good_list s.free ∧
  (∀ b ∈ s.live, 8 ∣ b.addr ∧ b.region.endAddr ≤ 2 ^ 63) ∧
  List.Pairwise reg_disjoint (s.free ++ ll_live_regions s)

/-! ## Bump allocator

Modelled from the spec: src/src/allocator.rs declares `pub mod bump` and
uses `bump::BumpAllocator`, but the file src/src/allocator/bump.rs is not
in the tree; the definitions below follow §3 ("Bump State") and §4.3 of the
specification. -/

/-- Modelled from the spec: bump state `{heap_start, heap_end, next,
allocations}` (§3); the source file of `BumpAllocator` is missing. -/
structure BumpState where
  heap_start : Nat
  heap_end : Nat
  next : Nat
  allocations : Nat
deriving DecidableEq

/-- Modelled from the spec: `init(start, size)` sets the heap bounds,
`next = start` and `allocations = 0` (§4.3). -/
def bump_init (start size : Nat) : BumpState :=
  ⟨start, start + size, start, 0⟩

/-- Modelled from the spec: `alloc(size, align)` (§4.3): align `next`
upwards, checked-add the size; if the end exceeds `heap_end` fail with the
null address and no state change, else bump `next`, count the allocation
and return the start. -/
def bump_alloc (s : BumpState) (size align : Nat) : Option Nat × BumpState :=
  let alloc_start := align_up s.next align
  match checked_add alloc_start size with
  | none => (none, s)
  | some alloc_end =>
    if s.heap_end < alloc_end then
      (none, s)
    else
      (some alloc_start, ⟨s.heap_start, s.heap_end, alloc_end, s.allocations + 1⟩)

/-- Modelled from the spec: `dealloc(_, _)` (§4.3): decrement
`allocations`; if the result is zero, reset `next = heap_start`. -/
def bump_dealloc (s : BumpState) : BumpState :=
  let allocations := s.allocations - 1
  if allocations = 0 then
    ⟨s.heap_start, s.heap_end, s.heap_start, allocations⟩
  else
    ⟨s.heap_start, s.heap_end, s.next, allocations⟩

/-- bump trace state: allocator state plus the outstanding blocks
`[alloc_start, alloc_start + size)`. -/
structure BumpTrace where
  bump : BumpState
  live : List Region
deriving DecidableEq

/-- one trace step of the bump allocator. -/
def bump_step (t : BumpTrace) : AllocOp → Option BumpTrace
  | .alloc lsize lalign =>
    if layout_valid lsize lalign then
      match bump_alloc t.bump lsize lalign with
      | (some a, b') => some ⟨b', ⟨a, lsize⟩ :: t.live⟩
      | (none, b') => some ⟨b', t.live⟩
    else none
  | .dealloc i =>
    match t.live[i]? with
    | some _ => some ⟨bump_dealloc t.bump, t.live.eraseIdx i⟩
    | none => none

/-- run a sequence of calls on the bump allocator. -/
def bump_run (t : BumpTrace) : List AllocOp → Option BumpTrace
  | [] => some t
  | op :: ops =>
    match bump_step t op with
    | some t' => bump_run t' ops
    | none => none

/-- initialize the bump allocator on the heap window, then run. -/
def bump_exec (heap_start heap_size : Nat) (ops : List AllocOp) :
    Option BumpTrace :=
  bump_run ⟨bump_init heap_start heap_size, []⟩ ops

/-- trace invariant of the bump allocator: `next` stays inside the heap,
the allocation counter counts the outstanding blocks, every outstanding
block ends at or before `next`, and outstanding blocks are pairwise
disjoint. -/
def bump_inv (t : BumpTrace) : Prop :=
  t.bump.heap_start ≤ t.bump.heap_end ∧
  t.bump.next ≤ t.bump.heap_end ∧ t.bump.heap_end ≤ 2 ^ 63 ∧
  t.live.length = t.bump.allocations ∧
  (∀ r ∈ t.live, r.endAddr ≤ t.bump.next) ∧
  List.Pairwise reg_disjoint t.live

/-! ## Heap initializer (src/src/allocator.rs lines 67-97)

The page mapper and the physical-frame source are external collaborators
(`x86_64` crate); they are abstracted as functions: `frames` yields the
frame allocated for a given page (or `none` for allocation failure), and
`map_to` yields `none` on success or a typed mapping error.  The active
strategy of the build is the bump allocator (`static ALLOCATOR:
Locked<BumpAllocator>`). -/

/-- `pub const HEAP_START: usize = 0x_4444_4444_0000`. -/
def HEAP_START : Nat := 0x444444440000

/-- `pub const HEAP_SIZE: usize = 100 * 1024`. -/
def HEAP_SIZE : Nat := 100 * 1024

/-- bytes of a `Size4KiB` page. -/
def PAGE_SIZE : Nat := 4096

/-- `PageTableFlags::PRESENT` (bit 0). -/
def PRESENT : Nat := 1

/-- `PageTableFlags::WRITABLE` (bit 1). -/
def WRITABLE : Nat := 2

/-- `x86_64::structures::paging::mapper::MapToError` for 4 KiB pages. -/
inductive MapToError where
  | frameAllocationFailed
  | parentEntryHugePage
  | pageAlreadyMapped (frame : Nat)
deriving DecidableEq

/-- one performed `map_to` call: page base address, frame, flags. -/
structure MapCall where
  page : Nat
  frame : Nat
  flags : Nat
deriving DecidableEq

/-- `Page::containing_address(VirtAddr::new(HEAP_START))`: page base. -/
def heap_start_page : Nat := HEAP_START / PAGE_SIZE * PAGE_SIZE

/-- `Page::containing_address(heap_start + HEAP_SIZE - 1)`: page base. -/
def heap_end_page : Nat := (HEAP_START + HEAP_SIZE - 1) / PAGE_SIZE * PAGE_SIZE

/-- number of pages of `Page::range_inclusive(heap_start_page, heap_end_page)`. -/
def heap_num_pages : Nat := (heap_end_page - heap_start_page) / PAGE_SIZE + 1

/-- the pages of the inclusive range, in ascending address order. -/
def heap_pages : List Nat := List.range' heap_start_page heap_num_pages PAGE_SIZE

/-- the for-loop of `init_heap`: for each page allocate a frame
(`FrameAllocationFailed` on `none`) and map it with present+writable
flags, propagating the first mapping error. -/
def map_pages (frames : Nat → Option Nat)
    (map_to : Nat → Nat → Option MapToError) :
    List Nat → Except MapToError (List MapCall)
  | [] => .ok []
  | p :: ps =>
    match frames p with
    | none => .error .frameAllocationFailed
    | some f =>
      match map_to p f with
      | some e => .error e
      | none =>
        match map_pages frames map_to ps with
        | .error e => .error e
        | .ok calls => .ok (⟨p, f, PRESENT ||| WRITABLE⟩ :: calls)

/-- `init_heap` (lines 74-97): map every page of the heap window, then —
only if all mappings succeeded — initialize the active strategy with
`(HEAP_START, HEAP_SIZE)`.  The result carries the performed mappings and
the initialized allocator; an error carries no allocator at all. -/
def init_heap (frames : Nat → Option Nat)
    (map_to : Nat → Nat → Option MapToError) :
    Except MapToError (List MapCall × BumpState) :=
  match map_pages frames map_to heap_pages with
  | .error e => .error e
  | .ok calls => .ok (calls, bump_init HEAP_START HEAP_SIZE)

/-! # Theorems -/

/-- div/mod restatement of truncating multiplication: `x / k * k = x - x % k`. -/
theorem div_mul_eq_sub_mod (x k : Nat) : x / k * k = x - x % k := by
  have h := Nat.div_add_mod x k
  rw [Nat.mul_comm] at h
  omega

/-- masking with the complement of the low `n` bits clears them:
for `x < 2^64` and `n ≤ 64`, `x &&& (2^64 - 2^n) = x / 2^n * 2^n`. -/
theorem land_mask (x n : Nat) (hx : x < 2 ^ 64) (hn : n ≤ 64) :
    x &&& (2 ^ 64 - 2 ^ n) = x / 2 ^ n * 2 ^ n := by
  have hmask : 2 ^ 64 - 2 ^ n = (2 ^ (64 - n) - 1) <<< n := by
    rw [Nat.shiftLeft_eq, Nat.sub_mul, one_mul, ← Nat.pow_add]
    rw [Nat.sub_add_cancel hn]
  have hrhs : x / 2 ^ n * 2 ^ n = (x >>> n) <<< n := by
    rw [Nat.shiftRight_eq_div_pow, Nat.shiftLeft_eq]
  rw [hmask, hrhs]
  apply Nat.eq_of_testBit_eq
  intro i
  rw [Nat.testBit_land, Nat.testBit_shiftLeft, Nat.testBit_shiftLeft,
    Nat.testBit_shiftRight]
  by_cases hni : n ≤ i
  · have h1 : n + (i - n) = i := by omega
    rw [h1, Nat.testBit_two_pow_sub_one]
    by_cases h64 : i < 64
    · have h2 : i - n < 64 - n := by omega
      simp [hni, h2]
    · have hx' : x.testBit i = false :=
        Nat.testBit_lt_two_pow
          (lt_of_lt_of_le hx (Nat.pow_le_pow_right (by norm_num) (by omega)))
      have h2 : ¬ (i - n < 64 - n) := by omega
      simp [hx', h2]
  · simp [hni]

/-- on power-of-two alignments, `align_up` is division rounding after the
wrapping add: `align_up a (2^m) = ((a + 2^m - 1) % 2^64) / 2^m * 2^m`. -/
theorem align_up_eq_div_mul (a m : Nat) (hm : m ≤ 63) :
    align_up a (2 ^ m) = ((a + 2 ^ m - 1) % 2 ^ 64) / 2 ^ m * 2 ^ m := by
  have hk : 0 < 2 ^ m := Nat.pos_pow_of_pos m (by norm_num)
  have hlt : 2 ^ m < 2 ^ 64 := Nat.pow_lt_pow_right (by norm_num) (by omega)
  unfold align_up USIZE
  have h1 : (2 ^ 64 - 2 ^ m) % 2 ^ 64 = 2 ^ 64 - 2 ^ m :=
    Nat.mod_eq_of_lt (by omega)
  rw [h1, land_mask _ m (Nat.mod_lt _ (by norm_num)) (by omega)]

/-- when `a + 2^m - 1` does not overflow, the wrap is a no-op. -/
theorem align_up_no_wrap (a m : Nat) (hm : m ≤ 63) (h : a + 2 ^ m ≤ 2 ^ 64) :
    align_up a (2 ^ m) = (a + 2 ^ m - 1) / 2 ^ m * 2 ^ m := by
  have hk : 0 < 2 ^ m := Nat.pos_pow_of_pos m (by norm_num)
  rw [align_up_eq_div_mul a m hm, Nat.mod_eq_of_lt (by omega)]

/-- rounding up: `a ≤ (a + k - 1) / k * k` for `0 < k`. -/
theorem le_div_mul (a k : Nat) (hk : 0 < k) : a ≤ (a + k - 1) / k * k := by
  rw [div_mul_eq_sub_mod]
  have := Nat.mod_lt (a + k - 1) hk
  omega

/-- `align_up` never exceeds `a + 2^m - 1` when the add does not wrap. -/
theorem align_up_le (a m : Nat) (hm : m ≤ 63) (h : a + 2 ^ m ≤ 2 ^ 64) :
    align_up a (2 ^ m) ≤ a + 2 ^ m - 1 := by
  rw [align_up_no_wrap a m hm h]
  exact Nat.div_mul_le_self _ _

/-- result of `align_up` is at least the input when the add does not wrap. -/
theorem align_up_ge (a m : Nat) (hm : m ≤ 63) (h : a + 2 ^ m ≤ 2 ^ 64) :
    a ≤ align_up a (2 ^ m) := by
  rw [align_up_no_wrap a m hm h]
  exact le_div_mul a _ (Nat.pos_pow_of_pos m (by norm_num))

/-- result of `align_up` is always a multiple of the alignment. -/
theorem align_up_dvd (a m : Nat) (hm : m ≤ 63) : 2 ^ m ∣ align_up a (2 ^ m) := by
  rw [align_up_eq_div_mul a m hm]
  exact dvd_mul_left _ _

/-- result of `align_up` always fits in `usize`. -/
theorem align_up_lt_usize (a m : Nat) (hm : m ≤ 63) : align_up a (2 ^ m) < 2 ^ 64 := by
  rw [align_up_eq_div_mul a m hm]
  calc ((a + 2 ^ m - 1) % 2 ^ 64) / 2 ^ m * 2 ^ m
      ≤ (a + 2 ^ m - 1) % 2 ^ 64 := Nat.div_mul_le_self _ _
    _ < 2 ^ 64 := Nat.mod_lt _ (by norm_num)

/-- an already-aligned `usize` input is left unchanged. -/
theorem align_up_of_dvd (a m : Nat) (hm : m ≤ 63) (ha : a < 2 ^ 64)
    (hd : 2 ^ m ∣ a) : align_up a (2 ^ m) = a := by
  obtain ⟨q, rfl⟩ := hd
  have hk : 0 < 2 ^ m := Nat.pos_pow_of_pos m (by norm_num)
  have hq : q < 2 ^ (64 - m) := by
    by_contra hq
    push_neg at hq
    have : 2 ^ m * 2 ^ (64 - m) ≤ 2 ^ m * q := Nat.mul_le_mul_left _ hq
    rw [← Nat.pow_add, Nat.add_sub_cancel' (show m ≤ 64 by omega)] at this
    omega
  have hbound : 2 ^ m * q + 2 ^ m ≤ 2 ^ 64 := by
    have h1 : 2 ^ m * (q + 1) ≤ 2 ^ m * 2 ^ (64 - m) := Nat.mul_le_mul_left _ hq
    rw [← Nat.pow_add, Nat.add_sub_cancel' (by omega : m ≤ 64)] at h1
    rw [Nat.mul_add, Nat.mul_one] at h1
    exact h1
  rw [align_up_no_wrap _ m hm hbound]
  have h2 : 2 ^ m * q + 2 ^ m - 1 = 2 ^ m * q + (2 ^ m - 1) := by omega
  rw [h2, Nat.mul_add_div hk, Nat.div_eq_of_lt (by omega), Nat.add_zero,
    Nat.mul_comm]

/-- `align_up` is idempotent. -/
theorem align_up_idem (a m : Nat) (hm : m ≤ 63) :
    align_up (align_up a (2 ^ m)) (2 ^ m) = align_up a (2 ^ m) :=
  align_up_of_dvd _ m hm (align_up_lt_usize a m hm) (align_up_dvd a m hm)

/-- C3 counterexample: at the top of the address space the claim fails.
With `a = 2^64 - 1` (a valid `usize`) and `k = 2 = 2^1`, the addition
`a + k - 1` wraps modulo `2^64`, so `align_up a k = 0 < a`: the claimed
`align_up(a, k) ≥ a` does not hold for every address `a`. -/
theorem align_up_ge_counterexample :
    align_up (2 ^ 64 - 1) 2 = 0 ∧ ¬ (2 ^ 64 - 1 ≤ align_up (2 ^ 64 - 1) 2) := by
  constructor
  · decide
  · decide

/-- C3 (amended): for every `usize` address `a < 2^64` and power-of-two
alignment `k = 2^m` (`m ≤ 63`): `align_up a k` is a multiple of `k`,
aligned inputs are unchanged, `align_up` is idempotent, and — provided
`a + k - 1` does not overflow `usize` — `a ≤ align_up a k`. -/
theorem align_up_spec (a m : Nat) (ha : a < 2 ^ 64) (hm : m ≤ 63) :
    (a + 2 ^ m ≤ 2 ^ 64 → a ≤ align_up a (2 ^ m)) ∧
    2 ^ m ∣ align_up a (2 ^ m) ∧
    (2 ^ m ∣ a → align_up a (2 ^ m) = a) ∧
    align_up (align_up a (2 ^ m)) (2 ^ m) = align_up a (2 ^ m) :=
  ⟨fun h => align_up_ge a m hm h, align_up_dvd a m hm,
   fun hd => align_up_of_dvd a m hm ha hd, align_up_idem a m hm⟩

/-- C3 witness: `align_up_spec` instantiated at `a = 100`, `k = 2^3 = 8`. -/
theorem align_up_spec_witness :
    (100 : Nat) < 2 ^ 64 ∧
    ((100 + 2 ^ 3 ≤ 2 ^ 64 → 100 ≤ align_up 100 (2 ^ 3)) ∧
     2 ^ 3 ∣ align_up 100 (2 ^ 3) ∧
     (2 ^ 3 ∣ 100 → align_up 100 (2 ^ 3) = 100) ∧
     align_up (align_up 100 (2 ^ 3)) (2 ^ 3) = align_up 100 (2 ^ 3)) :=
  ⟨by norm_num, align_up_spec 100 3 (by norm_num) (by norm_num)⟩

/-! ## First-fit search (C4) -/

/-- a successful `find_region` splits the list around the returned node:
everything before it was rejected, everything else keeps its order. -/
theorem find_region_split (l : List Region) (size align : Nat) (r : Region)
    (a : Nat) (rest : List Region)
    (h : find_region l size align = some (r, a, rest)) :
    ∃ l1 l2, l = l1 ++ r :: l2 ∧ rest = l1 ++ l2 ∧
      (∀ x ∈ l1, alloc_from_region x size align = none) ∧
      alloc_from_region r size align = some a := by
  induction l generalizing rest with
  | nil => simp [find_region] at h
  | cons region tl ih =>
    rw [find_region] at h
    cases hafr : alloc_from_region region size align with
    | some a0 =>
      rw [hafr] at h
      simp only [Option.some.injEq, Prod.mk.injEq] at h
      obtain ⟨h1, h2, h3⟩ := h
      subst h1 h2 h3
      exact ⟨[], tl, rfl, rfl, by simp, hafr⟩
    | none =>
      rw [hafr] at h
      cases hfr : find_region tl size align with
      | none => rw [hfr] at h; simp at h
      | some t =>
        obtain ⟨r', a', l'⟩ := t
        rw [hfr] at h
        simp only [Option.some.injEq, Prod.mk.injEq] at h
        obtain ⟨h1, h2, h3⟩ := h
        subst h1 h2
        obtain ⟨l1, l2, e1, e2, e3, e4⟩ := ih l' hfr
        refine ⟨region :: l1, l2, by rw [e1]; rfl, ?_, ?_, e4⟩
        · rw [← h3, e2]; rfl
        · intro x hx
          rcases List.mem_cons.mp hx with hx | hx
          · subst hx; exact hafr
          · exact e3 x hx

/-- `find_region` returns `none` exactly when every node is rejected. -/
theorem find_region_none_iff (l : List Region) (size align : Nat) :
    find_region l size align = none ↔
      ∀ x ∈ l, alloc_from_region x size align = none := by
  induction l with
  | nil => simp [find_region]
  | cons region tl ih =>
    rw [find_region]
    cases hafr : alloc_from_region region size align with
    | some a0 =>
      simp only []
      constructor
      · intro h; exact absurd h (by simp)
      · intro h
        have := h region (by simp)
        rw [hafr] at this
        exact absurd this (by simp)
    | none =>
      cases hfr : find_region tl size align with
      | none =>
        simp only []
        constructor
        · intro _ x hx
          rcases List.mem_cons.mp hx with hx | hx
          · subst hx; exact hafr
          · exact (ih.mp hfr) x hx
        · intro _; trivial
      | some t =>
        obtain ⟨r', a', l'⟩ := t
        simp only []
        constructor
        · intro h; exact absurd h (by simp)
        · intro h
          have : find_region tl size align = none :=
            ih.mpr (fun x hx => h x (List.mem_cons_of_mem _ hx))
          rw [this] at hfr
          exact absurd hfr (by simp)

/-- unfolding of `alloc_from_region`: success returns exactly the aligned
start, requires the overflow-checked end to fit in the region, and requires
the leftover tail to be zero or at least one node footprint. -/
theorem alloc_from_region_spec (r : Region) (size align st : Nat) :
    alloc_from_region r size align = some st ↔
      (st = align_up r.start align ∧ st + size < 2 ^ 64 ∧
       st + size ≤ r.endAddr ∧
       (r.endAddr - (st + size) = 0 ∨
         listNodeSize ≤ r.endAddr - (st + size))) := by
  rw [alloc_from_region]
  simp only [checked_add, USIZE]
  by_cases h1 : align_up r.start align + size < 2 ^ 64
  · rw [if_pos h1]
    simp only []
    by_cases h2 : r.endAddr < align_up r.start align + size
    · rw [if_pos h2]
      simp only [false_iff, reduceCtorEq]
      rintro ⟨rfl, _, h3, _⟩
      omega
    · rw [if_neg h2]
      by_cases h3 : 0 < r.endAddr - (align_up r.start align + size) ∧
          r.endAddr - (align_up r.start align + size) < listNodeSize
      · rw [if_pos h3]
        simp only [false_iff, reduceCtorEq]
        rintro ⟨rfl, _, _, h4⟩
        omega
      · rw [if_neg h3]
        simp only [Option.some.injEq]
        constructor
        · rintro rfl
          refine ⟨rfl, h1, by omega, by omega⟩
        · rintro ⟨rfl, _, _, _⟩; rfl
  · rw [if_neg h1]
    simp only [false_iff, reduceCtorEq]
    rintro ⟨rfl, h2, _, _⟩
    omega

/-- C4: `find_region(size, align)` is a linear first-fit scan: it returns
`none` exactly when no node qualifies; on success it returns the first
qualifying node (all nodes before it were rejected), unlinks exactly that
node leaving all others in their original order, and returns its
`alloc_start`; a node qualifies exactly when the aligned start plus the
size fits (overflow-checked) and the leftover tail is zero or at least one
node footprint. -/
theorem find_region_first_fit (l : List Region) (size align : Nat) :
    (find_region l size align = none ↔
      ∀ x ∈ l, alloc_from_region x size align = none) ∧
    (∀ r a rest, find_region l size align = some (r, a, rest) →
      ∃ l1 l2, l = l1 ++ r :: l2 ∧ rest = l1 ++ l2 ∧
        (∀ x ∈ l1, alloc_from_region x size align = none) ∧
        alloc_from_region r size align = some a) ∧
    (∀ r st, alloc_from_region r size align = some st ↔
      (st = align_up r.start align ∧ st + size < 2 ^ 64 ∧
       st + size ≤ r.endAddr ∧
       (r.endAddr - (st + size) = 0 ∨
         listNodeSize ≤ r.endAddr - (st + size)))) :=
  ⟨find_region_none_iff l size align,
   fun r a rest h => find_region_split l size align r a rest h,
   fun r st => alloc_from_region_spec r size align st⟩

/-- C4 witness: the two-region list `[(4096, 8), (8192, 64)]` with request
`(16, 8)`: the first node is rejected (too small), the second is unlinked. -/
theorem find_region_first_fit_witness :
    ∃ l1 l2, ([⟨4096, 8⟩, ⟨8192, 64⟩] : List Region) = l1 ++ ⟨8192, 64⟩ :: l2 ∧
      ([⟨4096, 8⟩] : List Region) = l1 ++ l2 ∧
      (∀ x ∈ l1, alloc_from_region x 16 8 = none) ∧
      alloc_from_region ⟨8192, 64⟩ 16 8 = some 8192 :=
  (find_region_first_fit [⟨4096, 8⟩, ⟨8192, 64⟩] 16 8).2.1 ⟨8192, 64⟩ 8192
    [⟨4096, 8⟩] (by decide)

/-! ## Layout adjustment and region insertion -/

/-- `layout_valid` unfolded. -/
theorem layout_valid_iff (lsize lalign : Nat) :
    layout_valid lsize lalign = true ↔
      (∃ m, m ≤ 63 ∧ lalign = 2 ^ m) ∧ lsize + lalign ≤ 2 ^ 63 := by
  unfold layout_valid
  rw [Bool.and_eq_true, List.any_eq_true, decide_eq_true_eq]
  constructor
  · rintro ⟨⟨m, hm, he⟩, h2⟩
    rw [List.mem_range] at hm
    rw [beq_iff_eq] at he
    exact ⟨⟨m, by omega, he⟩, h2⟩
  · rintro ⟨⟨m, hm, he⟩, h2⟩
    exact ⟨⟨m, List.mem_range.mpr (by omega), beq_iff_eq.mpr he⟩, h2⟩

/-- `align_up` at a power-of-two alignment of at least 8 lands on an
8-divisible address. -/
theorem align_up_dvd8 (a m : Nat) (h3 : 3 ≤ m) (h63 : m ≤ 63) :
    8 ∣ align_up a (2 ^ m) := by
  have h := align_up_dvd a m h63
  have h8 : (8 : Nat) = 2 ^ 3 := by norm_num
  rw [h8]
  exact dvd_trans (pow_dvd_pow 2 h3) h

/-- an 8-divisible `usize` address is fixed by node-alignment rounding. -/
theorem aligned8_of_dvd (a : Nat) (ha : a < 2 ^ 64) (hd : 8 ∣ a) :
    align_up a listNodeAlign = a := by
  have h8 : listNodeAlign = 2 ^ 3 := by norm_num [listNodeAlign]
  rw [h8]
  exact align_up_of_dvd a 3 (by norm_num) ha
    (by rw [show (2 : Nat) ^ 3 = 8 by norm_num]; exact hd)

/-- the adjusted size is always at least one node footprint. -/
theorem size_align_ge_node (lsize lalign : Nat) :
    listNodeSize ≤ (size_align lsize lalign).1 :=
  le_max_right _ _

/-- facts about `size_align` on a valid layout: the adjusted alignment is a
power of two between 8 and `2^63`, and the adjusted size is at least one
node footprint, divisible by 8, and below `2^64`. -/
theorem size_align_spec (lsize lalign : Nat)
    (h : layout_valid lsize lalign = true) :
    ∃ m', 3 ≤ m' ∧ m' ≤ 63 ∧ (size_align lsize lalign).2 = 2 ^ m' ∧
      listNodeSize ≤ (size_align lsize lalign).1 ∧
      8 ∣ (size_align lsize lalign).1 ∧
      (size_align lsize lalign).1 < 2 ^ 64 := by
  obtain ⟨⟨m, hm63, rfl⟩, hb⟩ := (layout_valid_iff _ _).mp h
  have h2m : 1 ≤ 2 ^ m := Nat.one_le_two_pow
  refine ⟨max m 3, le_max_right _ _, by omega, ?_, size_align_ge_node _ _, ?_, ?_⟩
  · show max (2 ^ m) listNodeAlign = 2 ^ max m 3
    rw [show listNodeAlign = 2 ^ 3 by norm_num [listNodeAlign]]
    rcases le_total m 3 with hc | hc
    · rw [Nat.max_eq_right (Nat.pow_le_pow_right (by norm_num) hc),
        Nat.max_eq_right hc]
    · rw [Nat.max_eq_left (Nat.pow_le_pow_right (by norm_num) hc),
        Nat.max_eq_left hc]
  · show 8 ∣ max (align_up lsize (max (2 ^ m) listNodeAlign)) listNodeSize
    have hmx : max (2 ^ m) listNodeAlign = 2 ^ max m 3 := by
      rw [show listNodeAlign = 2 ^ 3 by norm_num [listNodeAlign]]
      rcases le_total m 3 with hc | hc
      · rw [Nat.max_eq_right (Nat.pow_le_pow_right (by norm_num) hc),
          Nat.max_eq_right hc]
      · rw [Nat.max_eq_left (Nat.pow_le_pow_right (by norm_num) hc),
          Nat.max_eq_left hc]
    rw [hmx]
    rcases max_choice (align_up lsize (2 ^ max m 3)) listNodeSize with hc | hc
    · rw [hc]
      exact align_up_dvd8 lsize (max m 3) (le_max_right _ _) (by omega)
    · rw [hc]
      norm_num [listNodeSize]
  · show max (align_up lsize (max (2 ^ m) listNodeAlign)) listNodeSize < 2 ^ 64
    have hmx : max (2 ^ m) listNodeAlign = 2 ^ max m 3 := by
      rw [show listNodeAlign = 2 ^ 3 by norm_num [listNodeAlign]]
      rcases le_total m 3 with hc | hc
      · rw [Nat.max_eq_right (Nat.pow_le_pow_right (by norm_num) hc),
          Nat.max_eq_right hc]
      · rw [Nat.max_eq_left (Nat.pow_le_pow_right (by norm_num) hc),
          Nat.max_eq_left hc]
    rw [hmx]
    have hup : 2 ^ max m 3 ≤ 2 ^ 63 :=
      Nat.pow_le_pow_right (by norm_num) (by omega)
    have hno : lsize + 2 ^ max m 3 ≤ 2 ^ 64 := by
      have h63 : (2 : Nat) ^ 63 + 2 ^ 63 = 2 ^ 64 := by norm_num
      omega
    have := align_up_le lsize (max m 3) (by omega) hno
    have h16 : listNodeSize = 16 := rfl
    have h63 : (2 : Nat) ^ 63 + 2 ^ 63 = 2 ^ 64 := by norm_num
    rcases max_choice (align_up lsize (2 ^ max m 3)) listNodeSize with hc | hc <;>
      rw [hc] <;> omega

/-- `checked_add` unfolded. -/
theorem checked_add_some (a b c : Nat) :
    checked_add a b = some c ↔ a + b < 2 ^ 64 ∧ c = a + b := by
  unfold checked_add USIZE
  split_ifs with h
  · simp only [Option.some.injEq]
    constructor
    · rintro rfl; exact ⟨h, rfl⟩
    · rintro ⟨_, rfl⟩; rfl
  · simp only [reduceCtorEq, false_iff, not_and]
    intro hc
    exact absurd hc h

/-- `add_free_region` succeeds exactly on node-capable regions, and then
head-inserts. -/
theorem add_free_region_eq_some (l l' : List Region) (addr size : Nat) :
    add_free_region l addr size = some l' ↔
      align_up addr listNodeAlign = addr ∧ listNodeSize ≤ size ∧
        l' = ⟨addr, size⟩ :: l := by
  unfold add_free_region
  split_ifs with hc
  · simp only [Option.some.injEq]
    constructor
    · rintro rfl; exact ⟨hc.1, hc.2, rfl⟩
    · rintro ⟨_, _, rfl⟩; rfl
  · simp only [reduceCtorEq, false_iff]
    rintro ⟨h1, h2, _⟩
    exact hc ⟨h1, h2⟩

/-- a successful, non-null `ll_alloc` comes from a successful `find_region`
on the adjusted layout, and the final list is the remainder plus — exactly
when excess space remains — the excess tail region. -/
theorem ll_alloc_some_some (l : List Region) (lsize lalign a : Nat)
    (free' : List Region)
    (h : ll_alloc l lsize lalign = some (some a, free')) :
    ∃ region rest,
      find_region l (size_align lsize lalign).1 (size_align lsize lalign).2 =
        some (region, a, rest) ∧
      ((region.endAddr - (a + (size_align lsize lalign).1) = 0 ∧
        free' = rest) ∨
       (listNodeSize ≤ region.endAddr - (a + (size_align lsize lalign).1) ∧
        align_up (a + (size_align lsize lalign).1) listNodeAlign =
          a + (size_align lsize lalign).1 ∧
        free' = ⟨a + (size_align lsize lalign).1,
                 region.endAddr - (a + (size_align lsize lalign).1)⟩ :: rest)) := by
  rw [ll_alloc] at h
  cases hfr : find_region l (size_align lsize lalign).1
      (size_align lsize lalign).2 with
  | none =>
    rw [hfr] at h
    simp at h
  | some t =>
    obtain ⟨region, as, rest⟩ := t
    rw [hfr] at h
    simp only [] at h
    cases hca : checked_add as (size_align lsize lalign).1 with
    | none =>
      rw [hca] at h
      simp at h
    | some ae =>
      rw [hca] at h
      obtain ⟨hlt, rfl⟩ := (checked_add_some _ _ _).mp hca
      simp only [] at h
      by_cases hex : 0 < region.endAddr - (as + (size_align lsize lalign).1)
      · rw [if_pos hex] at h
        cases hadd : add_free_region rest (as + (size_align lsize lalign).1)
            (region.endAddr - (as + (size_align lsize lalign).1)) with
        | none =>
          rw [hadd] at h
          simp at h
        | some rest' =>
          rw [hadd] at h
          simp only [Option.some.injEq, Prod.mk.injEq] at h
          obtain ⟨ha, hfree⟩ := h
          obtain ⟨ha1, ha2, ha3⟩ := (add_free_region_eq_some _ _ _ _).mp hadd
          subst ha
          refine ⟨region, rest, rfl, Or.inr ⟨ha2, ha1, ?_⟩⟩
          rw [← hfree, ha3]
      · rw [if_neg hex] at h
        simp only [Option.some.injEq, Prod.mk.injEq] at h
        obtain ⟨ha, hfree⟩ := h
        subst ha
        exact ⟨region, rest, rfl, Or.inl ⟨by omega, hfree.symm⟩⟩

/-- `ll_alloc` returns the null address exactly when `find_region` fails on
the adjusted layout, and then the free list is untouched. -/
theorem ll_alloc_none_eq (l : List Region) (lsize lalign : Nat) :
    ll_alloc l lsize lalign = some (none, l) ↔
      find_region l (size_align lsize lalign).1 (size_align lsize lalign).2 =
        none := by
  rw [ll_alloc]
  cases hfr : find_region l (size_align lsize lalign).1
      (size_align lsize lalign).2 with
  | none => simp
  | some t =>
    obtain ⟨region, as, rest⟩ := t
    simp only []
    cases hca : checked_add as (size_align lsize lalign).1 with
    | none => simp
    | some ae =>
      simp only []
      by_cases hex : 0 < region.endAddr - ae
      · rw [if_pos hex]
        cases hadd : add_free_region rest ae (region.endAddr - ae) with
        | none => simp
        | some rest' => simp
      · rw [if_neg hex]
        simp

/-- a null `ll_alloc` always leaves the free list unchanged. -/
theorem ll_alloc_null_inv (l free' : List Region) (lsize lalign : Nat)
    (h : ll_alloc l lsize lalign = some (none, free')) : free' = l := by
  rw [ll_alloc] at h
  cases hfr : find_region l (size_align lsize lalign).1
      (size_align lsize lalign).2 with
  | none =>
    rw [hfr] at h
    simp only [Option.some.injEq, Prod.mk.injEq] at h
    exact h.2.symm
  | some t =>
    obtain ⟨region, as, rest⟩ := t
    rw [hfr] at h
    simp only [] at h
    cases hca : checked_add as (size_align lsize lalign).1 with
    | none => rw [hca] at h; simp at h
    | some ae =>
      rw [hca] at h
      simp only [] at h
      by_cases hex : 0 < region.endAddr - ae
      · rw [if_pos hex] at h
        cases hadd : add_free_region rest ae (region.endAddr - ae) with
        | none => rw [hadd] at h; simp at h
        | some rest' => rw [hadd] at h; simp at h
      · rw [if_neg hex] at h
        simp at h

/-- C5: on the success path, `alloc` returns `alloc_start` as the
allocation address, and exactly when the excess
`region.end - (alloc_start + size)` is nonzero it immediately re-inserts
`[alloc_start + size, region.end)` as a new free region at the list head
(eager splitting); with zero excess the remainder list is returned as is. -/
theorem ll_alloc_success (l : List Region) (lsize lalign a : Nat)
    (region : Region) (rest : List Region)
    (hv : layout_valid lsize lalign = true)
    (hfind : find_region l (size_align lsize lalign).1
        (size_align lsize lalign).2 = some (region, a, rest)) :
    ll_alloc l lsize lalign =
      some (some a,
        if 0 < region.endAddr - (a + (size_align lsize lalign).1) then
          ⟨a + (size_align lsize lalign).1,
           region.endAddr - (a + (size_align lsize lalign).1)⟩ :: rest
        else rest) := by
  obtain ⟨m', h3, h63, hal, hszge, hszdvd, hszlt⟩ := size_align_spec lsize lalign hv
  obtain ⟨l1, l2, hl, hrest, hrej, hafr⟩ :=
    find_region_split l _ _ region a rest hfind
  obtain ⟨hst, hlt, hfit, htail⟩ := (alloc_from_region_spec _ _ _ _).mp hafr
  have hdvd_a : 8 ∣ a := by
    rw [hst, hal]
    exact align_up_dvd8 _ m' h3 h63
  have hdvd_end : 8 ∣ a + (size_align lsize lalign).1 := dvd_add hdvd_a hszdvd
  have haligned : align_up (a + (size_align lsize lalign).1) listNodeAlign =
      a + (size_align lsize lalign).1 :=
    aligned8_of_dvd _ hlt hdvd_end
  rw [ll_alloc, hfind]
  simp only []
  rw [show checked_add a (size_align lsize lalign).1 =
      some (a + (size_align lsize lalign).1) from
    (checked_add_some _ _ _).mpr ⟨hlt, rfl⟩]
  simp only []
  by_cases hex : 0 < region.endAddr - (a + (size_align lsize lalign).1)
  · rw [if_pos hex, if_pos hex]
    rw [show add_free_region rest (a + (size_align lsize lalign).1)
        (region.endAddr - (a + (size_align lsize lalign).1)) =
        some (⟨a + (size_align lsize lalign).1,
               region.endAddr - (a + (size_align lsize lalign).1)⟩ :: rest) from
      (add_free_region_eq_some _ _ _ _).mpr ⟨haligned, by omega, rfl⟩]
  · rw [if_neg hex, if_neg hex]

/-- C5 witness: one 64-byte region at 4096; the request `(10, 4)` adjusts
to `(16, 8)`, is served at 4096, and the 48-byte excess is re-inserted. -/
theorem ll_alloc_success_witness :
    ll_alloc [⟨4096, 64⟩] 10 4 =
      some (some 4096,
        if 0 < Region.endAddr ⟨4096, 64⟩ - (4096 + (size_align 10 4).1) then
          ⟨4096 + (size_align 10 4).1,
           Region.endAddr ⟨4096, 64⟩ - (4096 + (size_align 10 4).1)⟩ :: []
        else []) :=
  ll_alloc_success [⟨4096, 64⟩] 10 4 4096 ⟨4096, 64⟩ [] (by decide) (by decide)

/-- C6: when no free region can satisfy the adjusted request `alloc`
returns the null address and the free list — node addresses, sizes and
order — is exactly as before the call; in particular a request strictly
larger than every region's capacity always fails this way. -/
theorem ll_alloc_failure_atomic (l : List Region) (lsize lalign : Nat) :
    (find_region l (size_align lsize lalign).1 (size_align lsize lalign).2 =
        none → ll_alloc l lsize lalign = some (none, l)) ∧
    ((∀ r ∈ l, r.size < (size_align lsize lalign).1) →
      (∀ r ∈ l, r.endAddr ≤ 2 ^ 63) →
      layout_valid lsize lalign = true →
      ll_alloc l lsize lalign = some (none, l)) := by
  constructor
  · intro hfind
    exact (ll_alloc_none_eq l lsize lalign).mpr hfind
  · intro hcap hbound hv
    apply (ll_alloc_none_eq l lsize lalign).mpr
    apply (find_region_none_iff _ _ _).mpr
    intro x hx
    cases hafr : alloc_from_region x (size_align lsize lalign).1
        (size_align lsize lalign).2 with
    | none => rfl
    | some st =>
      exfalso
      obtain ⟨m', h3, h63, hal, _, _, _⟩ := size_align_spec lsize lalign hv
      obtain ⟨hst, hlt, hfit, _⟩ := (alloc_from_region_spec _ _ _ _).mp hafr
      have hxe : x.endAddr ≤ 2 ^ 63 := hbound x hx
      have hxs : x.start ≤ x.endAddr := by
        unfold Region.endAddr
        omega
      have hm : 2 ^ m' ≤ 2 ^ 63 := Nat.pow_le_pow_right (by norm_num) h63
      have hge : x.start ≤ st := by
        rw [hst, hal]
        apply align_up_ge _ m' h63
        have : (2 : Nat) ^ 63 + 2 ^ 63 = 2 ^ 64 := by norm_num
        omega
      have := hcap x hx
      unfold Region.endAddr at hfit
      omega

/-- C6 witness: one 32-byte region cannot hold the adjusted 104-byte
request; the allocation fails and the list is unchanged. -/
theorem ll_alloc_failure_atomic_witness :
    ll_alloc [⟨4096, 32⟩] 100 8 = some (none, [⟨4096, 32⟩]) :=
  (ll_alloc_failure_atomic [⟨4096, 32⟩] 100 8).2 (by decide) (by decide)
    (by decide)

/-- C7: `dealloc` recomputes the same `size_align` adjustment as `alloc`
and calls `add_free_region(ptr, adjusted_size)`, which head-inserts the
freed region unconditionally; freeing two physically adjacent blocks
leaves two distinct list entries — no adjacency merging. -/
theorem ll_dealloc_no_merge (l : List Region) (p lsize lalign lsize2 lalign2 : Nat)
    (h1 : align_up p listNodeAlign = p)
    (h2 : align_up (p + (size_align lsize lalign).1) listNodeAlign =
          p + (size_align lsize lalign).1) :
    ll_dealloc l p lsize lalign = add_free_region l p (size_align lsize lalign).1 ∧
    ll_dealloc l p lsize lalign = some (⟨p, (size_align lsize lalign).1⟩ :: l) ∧
    ll_dealloc (⟨p, (size_align lsize lalign).1⟩ :: l)
        (p + (size_align lsize lalign).1) lsize2 lalign2 =
      some (⟨p + (size_align lsize lalign).1, (size_align lsize2 lalign2).1⟩ ::
            ⟨p, (size_align lsize lalign).1⟩ :: l) := by
  refine ⟨rfl, ?_, ?_⟩
  · exact (add_free_region_eq_some _ _ _ _).mpr
      ⟨h1, size_align_ge_node _ _, rfl⟩
  · exact (add_free_region_eq_some _ _ _ _).mpr
      ⟨h2, size_align_ge_node _ _, rfl⟩

/-- C7 witness: freeing `(4096, layout (24, 8))` and then the physically
adjacent `(4120, layout (24, 8))` yields two distinct head entries. -/
theorem ll_dealloc_no_merge_witness :
    ll_dealloc [] 4096 24 8 = add_free_region [] 4096 (size_align 24 8).1 ∧
    ll_dealloc [] 4096 24 8 = some (⟨4096, (size_align 24 8).1⟩ :: []) ∧
    ll_dealloc (⟨4096, (size_align 24 8).1⟩ :: []) (4096 + (size_align 24 8).1)
        24 8 =
      some (⟨4096 + (size_align 24 8).1, (size_align 24 8).1⟩ ::
            ⟨4096, (size_align 24 8).1⟩ :: []) :=
  ll_dealloc_no_merge [] 4096 24 8 24 8 (by decide) (by decide)

/-- C9: `add_free_region` halts (assertion failure) exactly on a region
that cannot host a node — a misaligned address or a size below one node
footprint — and never accepts such a region; under the preconditions
established by `init` (the build's heap constants), `alloc` (valid layout)
and `dealloc` (a node-aligned `usize` pointer), the assertions never fire. -/
theorem add_free_region_fatal_guard (l : List Region)
    (addr size lsize lalign p : Nat) :
    (add_free_region l addr size = none ↔
      ¬ (align_up addr listNodeAlign = addr ∧ listNodeSize ≤ size)) ∧
    ll_init HEAP_START HEAP_SIZE = some [⟨HEAP_START, HEAP_SIZE⟩] ∧
    (layout_valid lsize lalign = true → ll_alloc l lsize lalign ≠ none) ∧
    (8 ∣ p → p < 2 ^ 64 → ll_dealloc l p lsize lalign ≠ none) := by
  refine ⟨?_, by decide, ?_, ?_⟩
  · unfold add_free_region
    split_ifs with hc
    · simp [hc]
    · simp [hc]
  · intro hv
    obtain ⟨m', h3, h63, hal, hszge, hszdvd, hszlt⟩ := size_align_spec lsize lalign hv
    rw [ll_alloc]
    cases hfr : find_region l (size_align lsize lalign).1
        (size_align lsize lalign).2 with
    | none => simp
    | some t =>
      obtain ⟨region, a, rest⟩ := t
      simp only []
      have hafr : alloc_from_region region (size_align lsize lalign).1
          (size_align lsize lalign).2 = some a :=
        (find_region_split l _ _ region a rest hfr).choose_spec.choose_spec.2.2.2
      obtain ⟨hst, hlt, hfit, htail⟩ := (alloc_from_region_spec _ _ _ _).mp hafr
      rw [show checked_add a (size_align lsize lalign).1 =
          some (a + (size_align lsize lalign).1) from
        (checked_add_some _ _ _).mpr ⟨hlt, rfl⟩]
      simp only []
      have hdvd_a : 8 ∣ a := by
        rw [hst, hal]
        exact align_up_dvd8 _ m' h3 h63
      have haligned : align_up (a + (size_align lsize lalign).1) listNodeAlign =
          a + (size_align lsize lalign).1 :=
        aligned8_of_dvd _ hlt (dvd_add hdvd_a hszdvd)
      by_cases hex : 0 < region.endAddr - (a + (size_align lsize lalign).1)
      · rw [if_pos hex]
        rw [show add_free_region rest (a + (size_align lsize lalign).1)
            (region.endAddr - (a + (size_align lsize lalign).1)) =
            some (⟨a + (size_align lsize lalign).1,
                   region.endAddr - (a + (size_align lsize lalign).1)⟩ :: rest) from
          (add_free_region_eq_some _ _ _ _).mpr ⟨haligned, by omega, rfl⟩]
        simp
      · rw [if_neg hex]
        simp
  · intro hdvd hlt
    rw [ll_dealloc]
    rw [(add_free_region_eq_some _ _ _ _).mpr
      ⟨aligned8_of_dvd p hlt hdvd, size_align_ge_node _ _, rfl⟩]
    simp

/-- C9 witness: a misaligned address (4097) halts; the other guards at
`l = []`, layout `(24, 8)`, `p = 4096`. -/
theorem add_free_region_fatal_guard_witness :
    (add_free_region [] 4097 32 = none ↔
      ¬ (align_up 4097 listNodeAlign = 4097 ∧ listNodeSize ≤ 32)) ∧
    ll_init HEAP_START HEAP_SIZE = some [⟨HEAP_START, HEAP_SIZE⟩] ∧
    (layout_valid 24 8 = true → ll_alloc [] 24 8 ≠ none) ∧
    (8 ∣ 4096 → 4096 < 2 ^ 64 → ll_dealloc [] 4096 24 8 ≠ none) :=
  add_free_region_fatal_guard [] 4097 32 24 8 4096

/-- C2: after `init` every node of the free list can host a `ListNode`
(size at least the node footprint, start aligned to the node alignment),
and the invariant is preserved by every `alloc` and `dealloc`; `size_align`
adjusts each request to at least the node footprint and the node
alignment. -/
theorem free_list_node_invariant (hs hsz lsize lalign p : Nat)
    (l : List Region) :
    (∀ l', ll_init hs hsz = some l' → good_list l') ∧
    (good_list l → layout_valid lsize lalign = true →
      ∀ res free', ll_alloc l lsize lalign = some (res, free') →
        good_list free') ∧
    (good_list l →
      ∀ free', ll_dealloc l p lsize lalign = some free' → good_list free') ∧
    listNodeSize ≤ (size_align lsize lalign).1 ∧
    listNodeAlign ≤ (size_align lsize lalign).2 := by
  refine ⟨?_, ?_, ?_, size_align_ge_node _ _, le_max_right _ _⟩
  · intro l' h
    obtain ⟨ha, hge, rfl⟩ := (add_free_region_eq_some _ _ _ _).mp h
    intro r hr
    rw [List.mem_singleton] at hr
    subst hr
    exact ⟨hge, ha⟩
  · intro hl hv res free' h
    cases res with
    | none =>
      rw [ll_alloc_null_inv l free' lsize lalign h]
      exact hl
    | some a =>
      obtain ⟨region, rest, hfr, hcase⟩ := ll_alloc_some_some l lsize lalign a free' h
      obtain ⟨l1, l2, hsplit, hrest, _, _⟩ :=
        find_region_split l _ _ region a rest hfr
      have hmem : ∀ x ∈ rest, x ∈ l := by
        intro x hx
        rw [hrest] at hx
        rw [hsplit]
        rcases List.mem_append.mp hx with hx | hx
        · exact List.mem_append.mpr (Or.inl hx)
        · exact List.mem_append.mpr (Or.inr (List.mem_cons_of_mem _ hx))
      rcases hcase with ⟨_, rfl⟩ | ⟨hge, ha, rfl⟩
      · intro x hx
        exact hl x (hmem x hx)
      · intro x hx
        rcases List.mem_cons.mp hx with hx | hx
        · subst hx
          exact ⟨hge, ha⟩
        · exact hl x (hmem x hx)
  · intro hl free' h
    obtain ⟨ha, hge, rfl⟩ := (add_free_region_eq_some _ _ _ _).mp h
    intro r hr
    rcases List.mem_cons.mp hr with hr | hr
    · subst hr
      exact ⟨hge, ha⟩
    · exact hl r hr

/-- C2 witness: the invariant theorem instantiated at the build's heap
constants, the empty list and layout `(24, 8)`. -/
theorem free_list_node_invariant_witness :
    (∀ l', ll_init HEAP_START HEAP_SIZE = some l' → good_list l') ∧
    (good_list [] → layout_valid 24 8 = true →
      ∀ res free', ll_alloc [] 24 8 = some (res, free') → good_list free') ∧
    (good_list [] →
      ∀ free', ll_dealloc [] 4096 24 8 = some free' → good_list free') ∧
    listNodeSize ≤ (size_align 24 8).1 ∧
    listNodeAlign ≤ (size_align 24 8).2 :=
  free_list_node_invariant HEAP_START HEAP_SIZE 24 8 4096 []

/-! ## Bump allocator reclamation (C10) -/

/-- while the allocation counter stays positive, `bump_dealloc` only
decrements it: bounds and `next` are untouched. -/
theorem bump_dealloc_iterate (s : BumpState) (n m : Nat)
    (hn : s.allocations = n) (hm : m < n) :
    bump_dealloc^[m] s = ⟨s.heap_start, s.heap_end, s.next, n - m⟩ := by
  induction m with
  | zero =>
    simp only [Function.iterate_zero, id_eq, Nat.sub_zero]
    rw [← hn]
  | succ k ih =>
    rw [Function.iterate_succ_apply', ih (by omega)]
    simp only [bump_dealloc]
    rw [if_neg (by omega : ¬ (n - k - 1 = 0))]
    have h1 : n - k - 1 = n - (k + 1) := by omega
    rw [h1]

/-- C10: `dealloc` decrements the allocation counter and resets
`next = heap_start` exactly when the counter reaches zero; starting from
`N > 0` outstanding allocations, any `N - 1` frees leave `next` unchanged,
and the `N`-th free resets `next` to `heap_start`. -/
theorem bump_dealloc_reclaim (s : BumpState) (n : Nat)
    (hn : s.allocations = n) (hpos : 0 < n) :
    bump_dealloc s = ⟨s.heap_start, s.heap_end,
        if s.allocations - 1 = 0 then s.heap_start else s.next,
        s.allocations - 1⟩ ∧
    (∀ m, m < n → (bump_dealloc^[m] s).next = s.next) ∧
    (bump_dealloc^[n] s).next = s.heap_start ∧
    (bump_dealloc^[n] s).allocations = 0 := by
  have hiter : bump_dealloc^[n] s = ⟨s.heap_start, s.heap_end, s.heap_start, 0⟩ := by
    have hn1 : n = (n - 1) + 1 := by omega
    rw [hn1, Function.iterate_succ_apply',
      bump_dealloc_iterate s n (n - 1) hn (by omega)]
    have h1 : n - (n - 1) = 1 := by omega
    rw [h1]
    simp [bump_dealloc]
  refine ⟨?_, ?_, ?_, ?_⟩
  · simp only [bump_dealloc]
    split_ifs with hc
    · rfl
    · rfl
  · intro m hm
    rw [bump_dealloc_iterate s n m hn hm]
  · rw [hiter]
  · rw [hiter]

/-- C10 witness: a bump state with bounds `[0, 100)`, `next = 48` and two
outstanding allocations: one free keeps `next = 48`, the second resets it
to `heap_start = 0`. -/
theorem bump_dealloc_reclaim_witness :
    (⟨0, 100, 48, 2⟩ : BumpState).allocations = 2 ∧
    (bump_dealloc ⟨0, 100, 48, 2⟩ = ⟨0, 100,
        if (⟨0, 100, 48, 2⟩ : BumpState).allocations - 1 = 0 then 0 else 48,
        (⟨0, 100, 48, 2⟩ : BumpState).allocations - 1⟩ ∧
    (∀ m, m < 2 → (bump_dealloc^[m] (⟨0, 100, 48, 2⟩ : BumpState)).next = 48) ∧
    (bump_dealloc^[2] (⟨0, 100, 48, 2⟩ : BumpState)).next = 0 ∧
    (bump_dealloc^[2] (⟨0, 100, 48, 2⟩ : BumpState)).allocations = 0) :=
  ⟨rfl, bump_dealloc_reclaim ⟨0, 100, 48, 2⟩ 2 rfl (by norm_num)⟩

/-! ## Heap initializer (C8) -/

/-- an arithmetic progression with positive step is strictly ascending. -/
theorem chain_lt_range' (n : Nat) : ∀ s step : Nat, 0 < step →
    List.Chain' (· < ·) (List.range' s n step) := by
  induction n with
  | zero => intro s step _; simp
  | succ k ih =>
    intro s step hstep
    rw [List.range'_succ, List.chain'_cons']
    refine ⟨?_, ih (s + step) step hstep⟩
    intro b hb
    cases k with
    | zero => simp at hb
    | succ j =>
      rw [List.range'_succ] at hb
      simp only [List.head?_cons, Option.mem_def, Option.some.injEq] at hb
      omega

/-- when every frame allocation and every mapping succeeds, the loop maps
exactly the given pages, in order, with present+writable flags. -/
theorem map_pages_ok (frames : Nat → Option Nat)
    (map_to : Nat → Nat → Option MapToError) (ps : List Nat)
    (h1 : ∀ p ∈ ps, (frames p).isSome = true)
    (h2 : ∀ p ∈ ps, ∀ f, map_to p f = none) :
    ∃ calls, map_pages frames map_to ps = .ok calls ∧
      calls.map MapCall.page = ps ∧
      ∀ c ∈ calls, c.flags = PRESENT ||| WRITABLE := by
  induction ps with
  | nil => exact ⟨[], rfl, rfl, by simp⟩
  | cons p ps ih =>
    obtain ⟨f, hf⟩ := Option.isSome_iff_exists.mp (h1 p (by simp))
    obtain ⟨calls, hc1, hc2, hc3⟩ :=
      ih (fun q hq => h1 q (List.mem_cons_of_mem _ hq))
         (fun q hq => h2 q (List.mem_cons_of_mem _ hq))
    refine ⟨⟨p, f, PRESENT ||| WRITABLE⟩ :: calls, ?_, ?_, ?_⟩
    · rw [map_pages, hf]
      simp only []
      rw [h2 p (by simp) f]
      simp only []
      rw [hc1]
    · simp [hc2]
    · intro c hc
      rcases List.mem_cons.mp hc with hc | hc
      · subst hc; rfl
      · exact hc3 c hc

/-- C8: `init_heap` maps every page covering
`[HEAP_START, HEAP_START + HEAP_SIZE)` with present+writable flags in
ascending address order and only then initializes the active strategy with
`(HEAP_START, HEAP_SIZE)`; if a frame allocation or a mapping fails for
any page, it returns that typed error immediately and no allocator state
is produced — the first failing page's error is `FrameAllocationFailed`
when the frame source fails, or the mapper's own error. -/
theorem init_heap_spec (frames : Nat → Option Nat)
    (map_to : Nat → Nat → Option MapToError) :
    ((∀ p ∈ heap_pages, (frames p).isSome = true) →
     (∀ p ∈ heap_pages, ∀ f, map_to p f = none) →
      ∃ calls, init_heap frames map_to =
          .ok (calls, bump_init HEAP_START HEAP_SIZE) ∧
        calls.map MapCall.page = heap_pages ∧
        (∀ c ∈ calls, c.flags = PRESENT ||| WRITABLE) ∧
        List.Chain' (· < ·) (calls.map MapCall.page)) ∧
    (∀ e, map_pages frames map_to heap_pages = .error e →
      init_heap frames map_to = .error e) ∧
    (∀ p ps, frames p = none →
      map_pages frames map_to (p :: ps) = .error .frameAllocationFailed) ∧
    (∀ p ps f e, frames p = some f → map_to p f = some e →
      map_pages frames map_to (p :: ps) = .error e) ∧
    (∀ a, HEAP_START ≤ a → a < HEAP_START + HEAP_SIZE →
      ∃ p ∈ heap_pages, p ≤ a ∧ a < p + PAGE_SIZE) := by
  refine ⟨?_, ?_, ?_, ?_, ?_⟩
  · intro h1 h2
    obtain ⟨calls, hc1, hc2, hc3⟩ := map_pages_ok frames map_to heap_pages h1 h2
    refine ⟨calls, ?_, hc2, hc3, ?_⟩
    · rw [init_heap, hc1]
    · rw [hc2]
      exact chain_lt_range' heap_num_pages heap_start_page PAGE_SIZE (by decide)
  · intro e he
    rw [init_heap, he]
  · intro p ps hp
    rw [map_pages, hp]
  · intro p ps f e hp he
    rw [map_pages, hp]
    simp only []
    rw [he]
  · intro a h1 h2
    have hpage : PAGE_SIZE = 4096 := rfl
    have hdm := Nat.div_add_mod (a - HEAP_START) 4096
    have hmod := Nat.mod_lt (a - HEAP_START) (show 0 < 4096 by norm_num)
    refine ⟨HEAP_START + PAGE_SIZE * ((a - HEAP_START) / PAGE_SIZE), ?_, ?_, ?_⟩
    · rw [heap_pages, List.mem_range']
      refine ⟨(a - HEAP_START) / PAGE_SIZE, ?_, ?_⟩
      · show (a - HEAP_START) / PAGE_SIZE < heap_num_pages
        rw [hpage, show heap_num_pages = 25 by decide]
        rw [Nat.div_lt_iff_lt_mul (by norm_num : (0:Nat) < 4096)]
        have hsz : HEAP_SIZE = 102400 := rfl
        omega
      · rw [show heap_start_page = HEAP_START by decide]
    · rw [hpage]
      omega
    · rw [hpage]
      omega

/-- C8 witness: with a frame source and mapper that always succeed,
`init_heap` maps all 25 pages in ascending order and initializes the bump
strategy; the error conjuncts at a failing frame source and a failing
mapper on page 0. -/
theorem init_heap_spec_witness :
    ((∀ p ∈ heap_pages, ((fun _ => some 7) p : Option Nat).isSome = true) →
     (∀ p ∈ heap_pages, ∀ f, (fun _ _ => none : Nat → Nat → Option MapToError) p f = none) →
      ∃ calls, init_heap (fun _ => some 7) (fun _ _ => none) =
          .ok (calls, bump_init HEAP_START HEAP_SIZE) ∧
        calls.map MapCall.page = heap_pages ∧
        (∀ c ∈ calls, c.flags = PRESENT ||| WRITABLE) ∧
        List.Chain' (· < ·) (calls.map MapCall.page)) ∧
    (∀ e, map_pages (fun _ => some 7) (fun _ _ => none) heap_pages = .error e →
      init_heap (fun _ => some 7) (fun _ _ => none) = .error e) ∧
    (∀ p ps, (fun _ => (none : Option Nat)) p = none →
      map_pages (fun _ => none) (fun _ _ => none) (p :: ps) =
        .error .frameAllocationFailed) ∧
    (∀ p ps f e, (fun _ => (some 7 : Option Nat)) p = some f →
      (fun _ _ => (some MapToError.parentEntryHugePage :
          Option MapToError)) p f = some e →
      map_pages (fun _ => some 7) (fun _ _ => some .parentEntryHugePage)
        (p :: ps) = .error e) ∧
    (∀ a, HEAP_START ≤ a → a < HEAP_START + HEAP_SIZE →
      ∃ p ∈ heap_pages, p ≤ a ∧ a < p + PAGE_SIZE) := by
  refine ⟨(init_heap_spec (fun _ => some 7) (fun _ _ => none)).1,
    (init_heap_spec (fun _ => some 7) (fun _ _ => none)).2.1,
    (init_heap_spec (fun _ => none) (fun _ _ => none)).2.2.1,
    (init_heap_spec (fun _ => some 7)
      (fun _ _ => some .parentEntryHugePage)).2.2.2.1,
    (init_heap_spec (fun _ => some 7) (fun _ _ => none)).2.2.2.2⟩

/-! ## Non-overlap of outstanding allocations (C1) -/

/-- range disjointness is symmetric. -/
theorem reg_disjoint_symm (r1 r2 : Region) (h : reg_disjoint r1 r2) :
    reg_disjoint r2 r1 := by
  unfold reg_disjoint at h ⊢
  omega

/-- a sub-range of a region is disjoint from whatever the region is
disjoint from. -/
theorem disjoint_of_sub (r' r x : Region) (hsub : reg_sub r' r)
    (h : reg_disjoint r x) : reg_disjoint r' x := by
  unfold reg_sub Region.endAddr at hsub
  unfold reg_disjoint at h ⊢
  omega

/-- indexing decomposes a list around the indexed element, and `eraseIdx`
removes exactly it. -/
theorem getElem?_split {α : Type} (l : List α) (i : Nat) (b : α)
    (h : l[i]? = some b) :
    ∃ l1 l2, l = l1 ++ b :: l2 ∧ l.eraseIdx i = l1 ++ l2 := by
  induction l generalizing i with
  | nil => simp at h
  | cons x tl ih =>
    cases i with
    | zero =>
      simp only [List.getElem?_cons_zero, Option.some.injEq] at h
      subst h
      exact ⟨[], tl, rfl, by simp⟩
    | succ n =>
      simp only [List.getElem?_cons_succ] at h
      obtain ⟨l1, l2, e1, e2⟩ := ih n h
      exact ⟨x :: l1, l2, by simp [e1], by simp [List.eraseIdx_cons_succ, e2]⟩

/-- extracting a pairwise element: everything else is related to it and
stays pairwise. -/
theorem pairwise_extract {α : Type} (R : α → α → Prop)
    (hsymm : ∀ x y, R x y → R y x) (l1 l2 : List α) (a : α)
    (h : List.Pairwise R (l1 ++ a :: l2)) :
    (∀ x ∈ l1 ++ l2, R a x) ∧ List.Pairwise R (l1 ++ l2) := by
  have hp := h.perm List.perm_middle (fun hxy => hsymm _ _ hxy)
  rw [List.pairwise_cons] at hp
  exact hp

/-- inserting an element related to everything preserves pairwise. -/
theorem pairwise_insert {α : Type} (R : α → α → Prop)
    (hsymm : ∀ x y, R x y → R y x) (l1 l2 : List α) (a : α)
    (h1 : ∀ x ∈ l1 ++ l2, R a x) (h2 : List.Pairwise R (l1 ++ l2)) :
    List.Pairwise R (l1 ++ a :: l2) := by
  have hp : List.Pairwise R (a :: (l1 ++ l2)) :=
    List.pairwise_cons.mpr ⟨h1, h2⟩
  exact hp.perm List.perm_middle.symm (fun hxy => hsymm _ _ hxy)

/-- one step of the linked-list allocator preserves the trace invariant. -/
theorem ll_step_inv (s s' : LLState) (op : AllocOp)
    (hinv : ll_inv s) (h : ll_step s op = some s') : ll_inv s' := by
  obtain ⟨hb, hg, hl, hp⟩ := hinv
  cases op with
  | alloc lsize lalign =>
    simp only [ll_step] at h
    by_cases hv : layout_valid lsize lalign = true
    case neg =>
      rw [if_neg hv] at h
      simp at h
    rw [if_pos hv] at h
    cases hall : ll_alloc s.free lsize lalign with
    | none => rw [hall] at h; simp at h
    | some res =>
      obtain ⟨ores, free'⟩ := res
      rw [hall] at h
      cases ores with
      | none =>
        simp only [Option.some.injEq] at h
        subst h
        have hfz := ll_alloc_null_inv _ _ _ _ hall
        subst hfz
        exact ⟨hb, hg, hl, hp⟩
      | some a =>
        simp only [Option.some.injEq] at h
        subst h
        obtain ⟨region, rest, hfr, hcase⟩ := ll_alloc_some_some _ _ _ _ _ hall
        obtain ⟨l1, l2, hsplit, hrest, hrej, hafr⟩ :=
          find_region_split _ _ _ _ _ _ hfr
        obtain ⟨m', h3m, h63m, hal, hszge, hszdvd, hszlt⟩ :=
          size_align_spec lsize lalign hv
        obtain ⟨hst, hlt, hfit, htail⟩ := (alloc_from_region_spec _ _ _ _).mp hafr
        subst hrest
        have hreg_mem : region ∈ s.free := by
          rw [hsplit]
          exact List.mem_append.mpr (Or.inr (List.mem_cons_self _ _))
        have hregb : region.endAddr ≤ 2 ^ 63 := hb region hreg_mem
        have hrs : region.start ≤ region.endAddr := by
          unfold Region.endAddr
          omega
        have hm63 : 2 ^ m' ≤ 2 ^ 63 := Nat.pow_le_pow_right (by norm_num) h63m
        have hpow : (2 : Nat) ^ 63 + 2 ^ 63 = 2 ^ 64 := by norm_num
        have ha_ge : region.start ≤ a := by
          rw [hst, hal]
          apply align_up_ge _ _ h63m
          omega
        have hdvd_a : 8 ∣ a := by
          rw [hst, hal]
          exact align_up_dvd8 _ _ h3m h63m
        have hsub_b : reg_sub ⟨a, (size_align lsize lalign).1⟩ region := by
          refine ⟨ha_ge, ?_⟩
          show a + (size_align lsize lalign).1 ≤ region.endAddr
          exact hfit
        rw [hsplit] at hp
        have e1 : (l1 ++ region :: l2) ++ ll_live_regions s =
            l1 ++ region :: (l2 ++ ll_live_regions s) := by simp
        rw [e1] at hp
        obtain ⟨hD, hM⟩ :=
          pairwise_extract _ reg_disjoint_symm l1 (l2 ++ ll_live_regions s)
            region hp
        have hDb : ∀ x ∈ (l1 ++ l2) ++ ll_live_regions s,
            reg_disjoint (⟨a, (size_align lsize lalign).1⟩ : Region) x := by
          intro x hx
          apply disjoint_of_sub _ region x hsub_b
          apply hD
          simp only [List.mem_append] at hx ⊢
          tauto
        have hM' : List.Pairwise reg_disjoint
            ((l1 ++ l2) ++ ll_live_regions s) := by
          have e2 : (l1 ++ l2) ++ ll_live_regions s =
              l1 ++ (l2 ++ ll_live_regions s) := by simp
          rw [e2]
          exact hM
        have hnew_base : List.Pairwise reg_disjoint
            ((l1 ++ l2) ++
              (⟨a, (size_align lsize lalign).1⟩ : Region) ::
                ll_live_regions s) :=
          pairwise_insert _ reg_disjoint_symm (l1 ++ l2) (ll_live_regions s) _
            hDb hM'
        have hmem_rest : ∀ x ∈ l1 ++ l2, x ∈ s.free := by
          intro x hx
          rw [hsplit]
          simp only [List.mem_append, List.mem_cons] at hx ⊢
          tauto
        have hlive' : ∀ b ∈ (⟨a, lsize, lalign⟩ : LiveBlock) :: s.live,
            8 ∣ b.addr ∧ b.region.endAddr ≤ 2 ^ 63 := by
          intro b hbm
          rcases List.mem_cons.mp hbm with hbm | hbm
          · subst hbm
            refine ⟨hdvd_a, ?_⟩
            show a + (size_align lsize lalign).1 ≤ 2 ^ 63
            omega
          · exact hl b hbm
        rcases hcase with ⟨hex0, rfl⟩ | ⟨hge16, halend, rfl⟩
        · refine ⟨?_, ?_, hlive', ?_⟩
          · intro r hr
            exact hb r (hmem_rest r hr)
          · intro r hr
            exact hg r (hmem_rest r hr)
          · exact hnew_base
        · have hsub_t : reg_sub
              ⟨a + (size_align lsize lalign).1,
               region.endAddr - (a + (size_align lsize lalign).1)⟩ region := by
            constructor
            · show region.start ≤ a + (size_align lsize lalign).1
              omega
            · show a + (size_align lsize lalign).1 +
                  (region.endAddr - (a + (size_align lsize lalign).1)) ≤
                  region.endAddr
              omega
          refine ⟨?_, ?_, hlive', ?_⟩
          · intro r hr
            rcases List.mem_cons.mp hr with hr | hr
            · subst hr
              show a + (size_align lsize lalign).1 +
                  (region.endAddr - (a + (size_align lsize lalign).1)) ≤ 2 ^ 63
              omega
            · exact hb r (hmem_rest r hr)
          · intro r hr
            rcases List.mem_cons.mp hr with hr | hr
            · subst hr
              exact ⟨hge16, halend⟩
            · exact hg r (hmem_rest r hr)
          · show List.Pairwise reg_disjoint
              ((⟨a + (size_align lsize lalign).1,
                 region.endAddr - (a + (size_align lsize lalign).1)⟩ : Region) ::
                ((l1 ++ l2) ++
                  (⟨a, (size_align lsize lalign).1⟩ : Region) ::
                    ll_live_regions s))
            refine List.pairwise_cons.mpr ⟨?_, hnew_base⟩
            intro x hx
            rcases List.mem_append.mp hx with hx | hx
            · exact disjoint_of_sub _ region x hsub_t
                (hD x (by simp only [List.mem_append] at hx ⊢; tauto))
            · rcases List.mem_cons.mp hx with hx | hx
              · subst hx
                right
                show a + (size_align lsize lalign).1 ≤
                    a + (size_align lsize lalign).1
                exact le_refl _
              · exact disjoint_of_sub _ region x hsub_t
                  (hD x (by simp only [List.mem_append] at hx ⊢; tauto))
  | dealloc i =>
    simp only [ll_step] at h
    cases hget : s.live[i]? with
    | none => rw [hget] at h; simp at h
    | some b =>
      rw [hget] at h
      simp only [] at h
      cases hdl : ll_dealloc s.free b.addr b.lsize b.lalign with
      | none => rw [hdl] at h; simp at h
      | some free' =>
        rw [hdl] at h
        simp only [Option.some.injEq] at h
        subst h
        obtain ⟨halign, hge, rfl⟩ := (add_free_region_eq_some _ _ _ _).mp hdl
        obtain ⟨v1, v2, hvsplit, herase⟩ := getElem?_split s.live i b hget
        have hbmem : b ∈ s.live := by
          rw [hvsplit]
          exact List.mem_append.mpr (Or.inr (List.mem_cons_self _ _))
        obtain ⟨hbdvd, hbend⟩ := hl b hbmem
        have hmem_erase : ∀ x ∈ v1 ++ v2, x ∈ s.live := by
          intro x hx
          rw [hvsplit]
          simp only [List.mem_append, List.mem_cons] at hx ⊢
          tauto
        have hp2 : List.Pairwise reg_disjoint
            (s.free ++ (v1 ++ b :: v2).map LiveBlock.region) := by
          rw [← hvsplit]
          exact hp
        have hp' : List.Pairwise reg_disjoint
            ((s.free ++ v1.map LiveBlock.region) ++
              b.region :: v2.map LiveBlock.region) := by
          have e1 : (s.free ++ v1.map LiveBlock.region) ++
              b.region :: v2.map LiveBlock.region =
              s.free ++ (v1 ++ b :: v2).map LiveBlock.region := by simp
          rw [e1]
          exact hp2
        obtain ⟨hD, hM⟩ :=
          pairwise_extract _ reg_disjoint_symm
            (s.free ++ v1.map LiveBlock.region) (v2.map LiveBlock.region)
            b.region hp'
        refine ⟨?_, ?_, ?_, ?_⟩
        · intro r hr
          rcases List.mem_cons.mp hr with hr | hr
          · subst hr
            exact hbend
          · exact hb r hr
        · intro r hr
          rcases List.mem_cons.mp hr with hr | hr
          · subst hr
            exact ⟨hge, halign⟩
          · exact hg r hr
        · intro x hx
          rw [herase] at hx
          exact hl x (hmem_erase x hx)
        · show List.Pairwise reg_disjoint
            ((b.region :: s.free) ++
              ll_live_regions ⟨b.region :: s.free, s.live.eraseIdx i⟩)
          rw [herase]
          show List.Pairwise reg_disjoint
            (b.region :: (s.free ++ (v1 ++ v2).map LiveBlock.region))
          refine List.pairwise_cons.mpr ⟨?_, ?_⟩
          · intro x hx
            apply hD
            rw [List.map_append] at hx
            rw [List.append_assoc]
            exact hx
          · have e2 : s.free ++ (v1 ++ v2).map LiveBlock.region =
                (s.free ++ v1.map LiveBlock.region) ++
                  v2.map LiveBlock.region := by
              simp
            rw [e2]
            exact hM

/-- running a sequence of calls preserves the linked-list invariant. -/
theorem ll_run_inv (ops : List AllocOp) : ∀ s s' : LLState,
    ll_inv s → ll_run s ops = some s' → ll_inv s' := by
  induction ops with
  | nil =>
    intro s s' hi h
    simp only [ll_run, Option.some.injEq] at h
    subst h
    exact hi
  | cons op ops ih =>
    intro s s' hi h
    rw [ll_run] at h
    cases hstep : ll_step s op with
    | none => rw [hstep] at h; simp at h
    | some s1 =>
      rw [hstep] at h
      exact ih s1 s' (ll_step_inv s s1 op hi hstep) h

/-- every reachable state of the linked-list allocator satisfies the
invariant. -/
theorem ll_exec_inv (hs hsz : Nat) (ops : List AllocOp) (s : LLState)
    (hbound : hs + hsz ≤ 2 ^ 63) (h : ll_exec hs hsz ops = some s) :
    ll_inv s := by
  rw [ll_exec] at h
  cases hinit : ll_init hs hsz with
  | none => rw [hinit] at h; simp at h
  | some free0 =>
    rw [hinit] at h
    obtain ⟨ha, hge, rfl⟩ := (add_free_region_eq_some _ _ _ _).mp hinit
    apply ll_run_inv ops _ s _ h
    refine ⟨?_, ?_, ?_, ?_⟩
    · intro r hr
      rw [List.mem_singleton] at hr
      subst hr
      exact hbound
    · intro r hr
      rw [List.mem_singleton] at hr
      subst hr
      exact ⟨hge, ha⟩
    · intro b hbm
      simp at hbm
    · show List.Pairwise reg_disjoint ([⟨hs, hsz⟩] ++ ([] : List Region))
      simp

/-- outcome analysis of `bump_alloc`: failure keeps the state, success
returns the aligned `next` and advances it by the size. -/
theorem bump_alloc_cases (s : BumpState) (size align : Nat) :
    (bump_alloc s size align = (none, s) ∧
      (2 ^ 64 ≤ align_up s.next align + size ∨
       s.heap_end < align_up s.next align + size)) ∨
    (bump_alloc s size align =
      (some (align_up s.next align),
       ⟨s.heap_start, s.heap_end, align_up s.next align + size,
        s.allocations + 1⟩) ∧
      align_up s.next align + size < 2 ^ 64 ∧
      align_up s.next align + size ≤ s.heap_end) := by
  simp only [bump_alloc, checked_add, USIZE]
  by_cases h1 : align_up s.next align + size < 2 ^ 64
  · rw [if_pos h1]
    simp only []
    by_cases h2 : s.heap_end < align_up s.next align + size
    · rw [if_pos h2]
      exact Or.inl ⟨rfl, Or.inr h2⟩
    · rw [if_neg h2]
      exact Or.inr ⟨rfl, h1, by omega⟩
  · rw [if_neg h1]
    exact Or.inl ⟨rfl, Or.inl (by omega)⟩

/-- one step of the bump allocator preserves the trace invariant. -/
theorem bump_step_inv (t t' : BumpTrace) (op : AllocOp)
    (hinv : bump_inv t) (h : bump_step t op = some t') : bump_inv t' := by
  obtain ⟨hse, hnx, hhe, hlen, hend, hp⟩ := hinv
  cases op with
  | alloc lsize lalign =>
    simp only [bump_step] at h
    by_cases hv : layout_valid lsize lalign = true
    case neg =>
      rw [if_neg hv] at h
      simp at h
    rw [if_pos hv] at h
    obtain ⟨⟨m, hm63, hala⟩, hszb⟩ := (layout_valid_iff _ _).mp hv
    rcases bump_alloc_cases t.bump lsize lalign with ⟨hba, _⟩ | ⟨hba, hlt, hfit⟩
    · rw [hba] at h
      simp only [Option.some.injEq] at h
      subst h
      exact ⟨hse, hnx, hhe, hlen, hend, hp⟩
    · rw [hba] at h
      simp only [Option.some.injEq] at h
      subst h
      have h2m : 2 ^ m ≤ 2 ^ 63 := Nat.pow_le_pow_right (by norm_num) hm63
      have hpow : (2 : Nat) ^ 63 + 2 ^ 63 = 2 ^ 64 := by norm_num
      have ha_ge : t.bump.next ≤ align_up t.bump.next lalign := by
        subst hala
        apply align_up_ge _ _ hm63
        omega
      refine ⟨hse, hfit, hhe, ?_, ?_, ?_⟩
      · show (⟨align_up t.bump.next lalign, lsize⟩ :: t.live).length =
          t.bump.allocations + 1
        simp [hlen]
      · intro r hr
        rcases List.mem_cons.mp hr with hr | hr
        · subst hr
          show align_up t.bump.next lalign + lsize ≤
              align_up t.bump.next lalign + lsize
          exact le_refl _
        · have := hend r hr
          show r.start + r.size ≤ align_up t.bump.next lalign + lsize
          unfold Region.endAddr at this
          omega
      · refine List.pairwise_cons.mpr ⟨?_, hp⟩
        intro x hx
        have := hend x hx
        unfold Region.endAddr at this
        right
        show x.start + x.size ≤ align_up t.bump.next lalign
        omega
  | dealloc i =>
    simp only [bump_step] at h
    cases hget : t.live[i]? with
    | none => rw [hget] at h; simp at h
    | some b0 =>
      rw [hget] at h
      simp only [Option.some.injEq] at h
      subst h
      obtain ⟨v1, v2, hvsplit, herase⟩ := getElem?_split t.live i b0 hget
      have hlive_len : t.live.length = v1.length + v2.length + 1 := by
        rw [hvsplit]
        simp
        omega
      unfold bump_dealloc
      by_cases hz : t.bump.allocations - 1 = 0
      · rw [if_pos hz]
        have hlen0 : (t.live.eraseIdx i).length = 0 := by
          rw [herase]
          simp only [List.length_append]
          omega
        have hnil : t.live.eraseIdx i = [] :=
          List.eq_nil_of_length_eq_zero hlen0
        rw [hnil]
        refine ⟨hse, hse, hhe, by simp [hz], ?_, ?_⟩
        · intro r hr
          simp at hr
        · simp
      · rw [if_neg hz]
        refine ⟨hse, hnx, hhe, ?_, ?_, ?_⟩
        · show (t.live.eraseIdx i).length = t.bump.allocations - 1
          rw [herase]
          simp only [List.length_append]
          omega
        · intro r hr
          rw [herase] at hr
          apply hend
          rw [hvsplit]
          simp only [List.mem_append, List.mem_cons] at hr ⊢
          tauto
        · rw [herase]
          have hsub : (v1 ++ v2).Sublist (v1 ++ b0 :: v2) :=
            List.Sublist.append (List.Sublist.refl v1)
              (List.Sublist.cons b0 (List.Sublist.refl v2))
          have hp' : List.Pairwise reg_disjoint (v1 ++ b0 :: v2) := by
            rw [← hvsplit]
            exact hp
          exact hp'.sublist hsub

/-- running a sequence of calls preserves the bump invariant. -/
theorem bump_run_inv (ops : List AllocOp) : ∀ t t' : BumpTrace,
    bump_inv t → bump_run t ops = some t' → bump_inv t' := by
  induction ops with
  | nil =>
    intro t t' hi h
    simp only [bump_run, Option.some.injEq] at h
    subst h
    exact hi
  | cons op ops ih =>
    intro t t' hi h
    rw [bump_run] at h
    cases hstep : bump_step t op with
    | none => rw [hstep] at h; simp at h
    | some t1 =>
      rw [hstep] at h
      exact ih t1 t' (bump_step_inv t t1 op hi hstep) h

/-- every reachable state of the bump allocator satisfies the invariant. -/
theorem bump_exec_inv (hs hsz : Nat) (ops : List AllocOp) (t : BumpTrace)
    (hbound : hs + hsz ≤ 2 ^ 63) (h : bump_exec hs hsz ops = some t) :
    bump_inv t := by
  rw [bump_exec] at h
  apply bump_run_inv ops _ t _ h
  refine ⟨?_, ?_, ?_, ?_, ?_, ?_⟩
  · show hs ≤ hs + hsz
    omega
  · show hs ≤ hs + hsz
    omega
  · exact hbound
  · rfl
  · intro r hr
    simp at hr
  · simp

/-- C1: after initializing either strategy on a heap window
`[hs, hs + hsz)` in the lower half of the address space, every sequence of
allocate/deallocate calls (well-formed layouts, frees of outstanding
blocks) leaves the address ranges `[alloc_start, alloc_start +
adjusted_size)` of the outstanding allocations pairwise disjoint — for the
linked-list allocator and likewise for the bump strategy. -/
theorem outstanding_allocations_disjoint (hs hsz : Nat)
    (ops ops2 : List AllocOp) (hbound : hs + hsz ≤ 2 ^ 63) :
    (∀ s, ll_exec hs hsz ops = some s →
      List.Pairwise reg_disjoint (ll_live_regions s)) ∧
    (∀ t, bump_exec hs hsz ops2 = some t →
      List.Pairwise reg_disjoint t.live) := by
  constructor
  · intro s h
    have hi := ll_exec_inv hs hsz ops s hbound h
    exact (List.pairwise_append.mp hi.2.2.2).2.1
  · intro t h
    have hi := bump_exec_inv hs hsz ops2 t hbound h
    exact hi.2.2.2.2.2

/-- C1 witness: on the window `[4096, 5120)`, the linked-list trace
(alloc 24/8, alloc 10/1, free the first block) ends with one outstanding
block, and the bump trace (alloc 24/8, free it) ends empty; both outstanding
sets are pairwise disjoint. -/
theorem outstanding_allocations_disjoint_witness :
    List.Pairwise reg_disjoint
      (ll_live_regions ⟨[⟨4096, 24⟩, ⟨4136, 984⟩], [⟨4120, 10, 1⟩]⟩) ∧
    List.Pairwise reg_disjoint
      (⟨⟨4096, 5120, 4096, 0⟩, ([] : List Region)⟩ : BumpTrace).live :=
  ⟨(outstanding_allocations_disjoint 4096 1024
      [.alloc 24 8, .alloc 10 1, .dealloc 1] [.alloc 24 8, .dealloc 0]
      (by norm_num)).1 ⟨[⟨4096, 24⟩, ⟨4136, 984⟩], [⟨4120, 10, 1⟩]⟩ (by decide),
   (outstanding_allocations_disjoint 4096 1024
      [.alloc 24 8, .alloc 10 1, .dealloc 1] [.alloc 24 8, .dealloc 0]
      (by norm_num)).2 ⟨⟨4096, 5120, 4096, 0⟩, []⟩ (by decide)⟩
